import Mathlib

/-!
Verification of the sa-placer placement engine: a shallow embedding of the
Rust sources (src/fpga_layout.rs, src/netlist.rs, src/placer.rs) in Lean 4,
with theorems settling the specification's claims about it.

Conventions of the embedding:
* Rust `u32` values are modelled as `Nat`; `i32` arithmetic used for
  Manhattan distances is modelled as `Int` (exact, no overflow concerns in
  the claims' regime).
* `FxHashMap` is modelled as an association list whose `insert` removes the
  old binding of the key (hash-map overwrite semantics); lookup is the first
  binding.  Iteration order of a hash map is unspecified in Rust, the list
  order stands in for it.
* Code that can panic (`unwrap`, failed `assert!`, indexing) is modelled
  with `Option`: `none` is a panic/abort, `some` a normal return.
* The random draws of the Rust code (`choose`, `gen_range`) become explicit
  index arguments, reduced modulo the length of the sampled collection, so
  every theorem quantifies over all possible draws.
* The Rust enum variant `MacroType::IO` is named `IOB` here.
-/

/-- Rust `MacroType` (src/fpga_layout.rs): the functional category a site or
node requires.  `IOB` embeds the Rust variant `IO`. -/
inductive MacroType
  | CLB
  | DSP
  | BRAM
  | IOB
deriving DecidableEq, Repr

/-- Rust `FPGALayoutType`: a macro kind or an empty (unusable) site. -/
inductive FPGALayoutType
  | Macro (m : MacroType)
  | EMPTY
deriving DecidableEq, Repr

/-- Rust `FPGALayoutCoordinate`: an (x, y) pair of grid indices. -/
structure FPGALayoutCoordinate where
  x : Nat
  y : Nat
deriving DecidableEq, Repr

/-- Rust `FPGALayout`: a map from coordinates to site types plus explicit
width and height.  The `FxHashMap` is an association list here. -/
structure FPGALayout where
  map : List (FPGALayoutCoordinate × FPGALayoutType)
  width : Nat
  height : Nat
deriving DecidableEq, Repr

/-- Lookup in the layout's stored coordinate map (first binding wins; the
embedding's inserts keep at most one binding per key). -/
def layoutLookup (c : FPGALayoutCoordinate) :
    List (FPGALayoutCoordinate × FPGALayoutType) → Option FPGALayoutType
  | [] => none
  | kv :: rest => if kv.1 = c then some kv.2 else layoutLookup c rest

/-- Hash-map insert for the layout map: overwrites the binding of `c`. -/
def layoutInsert (c : FPGALayoutCoordinate) (t : FPGALayoutType)
    (m : List (FPGALayoutCoordinate × FPGALayoutType)) :
    List (FPGALayoutCoordinate × FPGALayoutType) :=
  m.filter (fun kv => decide (kv.1 ≠ c)) ++ [(c, t)]

/-- Rust `FPGALayout::get`: `None` exactly when the coordinate is out of
bounds; an in-bounds coordinate missing from the stored map yields
`Some(EMPTY)`. -/
def FPGALayout.get (L : FPGALayout) (c : FPGALayoutCoordinate) :
    Option FPGALayoutType :=
  if L.width ≤ c.x ∨ L.height ≤ c.y then none
  else
    match layoutLookup c L.map with
    | none => some FPGALayoutType.EMPTY
    | some t => some t

/-- Rust `FPGALayout::valid`: every stored coordinate lies inside
[0,width) × [0,height). -/
def FPGALayout.valid (L : FPGALayout) : Bool :=
  decide (∀ kv ∈ L.map, kv.1.x < L.width ∧ kv.1.y < L.height)

/-- The x-values visited by Rust's `(start..start+len).step_by(step)`
(for `step ≥ 1`). -/
def steppedRange (start len step : Nat) : List Nat :=
  (List.range len).filterMap
    (fun i => if i % step = 0 then some (start + i) else none)

/-- Rust `FPGALayout::config_repeat`: tiles `layout_type` over the stepped
grid of the rectangle at (x, y) of size width × height, skipping grid points
outside the layout's own bounds.  `step_by(0)` panics in Rust: `none`. -/
def FPGALayout.config_repeat (L : FPGALayout) (x y width height step_x step_y : Nat)
    (layout_type : FPGALayoutType) : Option FPGALayout :=
  if step_x = 0 ∨ step_y = 0 then none
  else
    some { L with map :=
      (steppedRange x width step_x).foldl (fun m xv =>
        (steppedRange y height step_y).foldl (fun m2 yv =>
          if L.width ≤ xv ∨ L.height ≤ yv then m2
          else layoutInsert ⟨xv, yv⟩ layout_type m2) m) L.map }

/-- Keys of a layout map after `layoutInsert` are the old keys (minus the
inserted one) plus the inserted key. -/
theorem mem_layoutInsert {kv : FPGALayoutCoordinate × FPGALayoutType}
    {c : FPGALayoutCoordinate} {t : FPGALayoutType}
    {m : List (FPGALayoutCoordinate × FPGALayoutType)} :
    kv ∈ layoutInsert c t m ↔ (kv ∈ m ∧ kv.1 ≠ c) ∨ kv = (c, t) := by
  unfold layoutInsert
  simp [List.mem_filter, List.mem_append]

/-- A fold of in-bounds-guarded inserts keeps every stored key in bounds. -/
theorem foldl_insert_inbounds_y (W H : Nat) (t : FPGALayoutType) (xv : Nat)
    (ys : List Nat) (m : List (FPGALayoutCoordinate × FPGALayoutType))
    (hm : ∀ kv ∈ m, kv.1.x < W ∧ kv.1.y < H) :
    ∀ kv ∈ ys.foldl (fun m2 yv =>
        if W ≤ xv ∨ H ≤ yv then m2 else layoutInsert ⟨xv, yv⟩ t m2) m,
      kv.1.x < W ∧ kv.1.y < H := by
  induction ys generalizing m with
  | nil => exact hm
  | cons yv ys ih =>
    intro kv hkv
    refine ih _ ?_ kv hkv
    intro kv' hkv'
    by_cases hb : W ≤ xv ∨ H ≤ yv
    · simp only [if_pos hb] at hkv'
      exact hm kv' hkv'
    · simp only [if_neg hb] at hkv'
      rcases mem_layoutInsert.mp hkv' with ⟨hmem, _⟩ | heq
      · exact hm kv' hmem
      · push_neg at hb
        subst heq
        exact ⟨hb.1, hb.2⟩

/-- The outer fold of `config_repeat` keeps every stored key in bounds. -/
theorem foldl_insert_inbounds_x (W H : Nat) (t : FPGALayoutType)
    (ys : List Nat) (xs : List Nat)
    (m : List (FPGALayoutCoordinate × FPGALayoutType))
    (hm : ∀ kv ∈ m, kv.1.x < W ∧ kv.1.y < H) :
    ∀ kv ∈ xs.foldl (fun m xv =>
        ys.foldl (fun m2 yv =>
          if W ≤ xv ∨ H ≤ yv then m2 else layoutInsert ⟨xv, yv⟩ t m2) m) m,
      kv.1.x < W ∧ kv.1.y < H := by
  induction xs generalizing m with
  | nil => exact hm
  | cons xv xs ih =>
    intro kv hkv
    exact ih _ (foldl_insert_inbounds_y W H t xv ys m hm) kv hkv

/-- C8: `FPGALayout::get` returns `None` exactly for out-of-bounds
coordinates; every in-bounds coordinate yields a site type, with coordinates
missing from the stored map defaulting to `EMPTY` (never a key-missing
failure). -/
theorem FPGALayout.get_total (L : FPGALayout) (c : FPGALayoutCoordinate) :
    (L.get c = none ↔ L.width ≤ c.x ∨ L.height ≤ c.y) ∧
    (c.x < L.width → c.y < L.height →
      L.get c = some ((layoutLookup c L.map).getD FPGALayoutType.EMPTY)) := by
  constructor
  · constructor
    · intro h
      by_contra hb
      rw [FPGALayout.get, if_neg hb] at h
      cases hl : layoutLookup c L.map with
      | none => rw [hl] at h; exact Option.noConfusion h
      | some t => rw [hl] at h; exact Option.noConfusion h
    · intro h
      rw [FPGALayout.get, if_pos h]
  · intro hx hy
    have hb : ¬ (L.width ≤ c.x ∨ L.height ≤ c.y) := by omega
    rw [FPGALayout.get, if_neg hb]
    cases hl : layoutLookup c L.map with
    | none => simp [hl]
    | some t => simp [hl]

/-- Witness for C8 at a concrete layout and coordinates. -/
theorem FPGALayout.get_total_witness :
    let L : FPGALayout := ⟨[(⟨0, 0⟩, FPGALayoutType.Macro MacroType.CLB)], 2, 2⟩
    L.get ⟨1, 1⟩ = some ((layoutLookup ⟨1, 1⟩ L.map).getD FPGALayoutType.EMPTY) :=
  (FPGALayout.get_total ⟨[(⟨0, 0⟩, FPGALayoutType.Macro MacroType.CLB)], 2, 2⟩
    ⟨1, 1⟩).2 (by decide) (by decide)

/-- C10: `config_repeat` preserves the layout validity invariant: if every
stored coordinate of `L` is in bounds and the call returns a layout, every
stored coordinate of the result is in bounds. -/
theorem FPGALayout.config_repeat_preserves_valid (L L' : FPGALayout)
    (x y width height step_x step_y : Nat) (t : FPGALayoutType)
    (hv : L.valid = true)
    (h : L.config_repeat x y width height step_x step_y t = some L') :
    L'.valid = true := by
  rw [FPGALayout.config_repeat] at h
  by_cases hs : step_x = 0 ∨ step_y = 0
  · rw [if_pos hs] at h
    exact Option.noConfusion h
  · rw [if_neg hs] at h
    have hL := Option.some.inj h
    have hm : ∀ kv ∈ L.map, kv.1.x < L.width ∧ kv.1.y < L.height := by
      have := of_decide_eq_true hv
      exact this
    have hall := foldl_insert_inbounds_x L.width L.height t
      (steppedRange y height step_y) (steppedRange x width step_x) L.map hm
    rw [FPGALayout.valid]
    apply decide_eq_true
    intro kv hkv
    have hw : L'.width = L.width := by rw [← hL]
    have hh : L'.height = L.height := by rw [← hL]
    rw [hw, hh]
    apply hall
    have hmap : L'.map =
        (steppedRange x width step_x).foldl (fun m xv =>
          (steppedRange y height step_y).foldl (fun m2 yv =>
            if L.width ≤ xv ∨ L.height ≤ yv then m2
            else layoutInsert ⟨xv, yv⟩ t m2) m) L.map := by
      rw [← hL]
    rw [← hmap]
    exact hkv

/-- Witness for C10 at a concrete layout and arguments (tiling CLBs over a
3 × 3 grid, with part of the requested rectangle out of range). -/
theorem FPGALayout.config_repeat_preserves_valid_witness :
    (FPGALayout.mk
      [(⟨0, 0⟩, FPGALayoutType.Macro MacroType.CLB),
       (⟨0, 2⟩, FPGALayoutType.Macro MacroType.CLB),
       (⟨2, 0⟩, FPGALayoutType.Macro MacroType.CLB),
       (⟨2, 2⟩, FPGALayoutType.Macro MacroType.CLB)] 3 3).valid = true :=
  FPGALayout.config_repeat_preserves_valid (FPGALayout.mk [] 3 3) _
    0 0 5 5 2 2 (FPGALayoutType.Macro MacroType.CLB) (by decide) (by decide)

/-- Rust `NetlistNode` (src/netlist.rs): an element to be placed, with an
identifier and the site type it requires. -/
structure NetlistNode where
  id : Nat
  macro_type : MacroType
deriving DecidableEq, Repr

/-- Rust `NetlistGraph`: the petgraph node weights and the edge list (each
edge given by the weights of its two endpoints).  Edge direction is kept but
never used by the cost function. -/
structure NetlistGraph where
  nodes : List NetlistNode
  edges : List (NetlistNode × NetlistNode)
deriving DecidableEq, Repr

/-- Rust `NetlistGraph::all_nodes`. -/
def NetlistGraph.all_nodes (g : NetlistGraph) : List NetlistNode := g.nodes

/-- The node→coordinate map of a solution (Rust `FxHashMap`), as an
association list with at most one binding per key. -/
abbrev SolutionMap : Type := List (NetlistNode × FPGALayoutCoordinate)

/-- Lookup in the solution map (first binding wins). -/
def smLookup (k : NetlistNode) : SolutionMap → Option FPGALayoutCoordinate
  | [] => none
  | kv :: rest => if kv.1 = k then some kv.2 else smLookup k rest

/-- Hash-map insert for the solution map: overwrites the binding of `k`. -/
def mapInsert (k : NetlistNode) (v : FPGALayoutCoordinate) (m : SolutionMap) :
    SolutionMap :=
  List.filter (fun kv => decide (kv.1 ≠ k)) m ++ [(k, v)]

/-- Rust `PlacementSolution`: shared layout and netlist plus the owned
node→coordinate map. -/
structure PlacementSolution where
  layout : FPGALayout
  netlist : NetlistGraph
  solution_map : SolutionMap
deriving DecidableEq, Repr

/-- Rust `PlacementAction`. -/
inductive PlacementAction
  | MOVE
  | SWAP
  | MOVE_DIRECTED
deriving DecidableEq, Repr

/-- Default node for the total modelling of random draws (never chosen from
a nonempty pool). -/
def defNode : NetlistNode := ⟨0, MacroType.CLB⟩

/-- Default coordinate for the total modelling of random draws. -/
def defCoord : FPGALayoutCoordinate := ⟨0, 0⟩

/-- A uniform draw from a pool, with the raw random index reduced modulo the
pool size; total via a default that a nonempty pool never yields. -/
def pick {α : Type} (l : List α) (i : Nat) (d : α) : α :=
  l.getD (i % l.length) d

/-- The grid coordinates in the scan order of the Rust loops
(`for x in 0..width { for y in 0..height { ... } }`). -/
def allCoords (w h : Nat) : List FPGALayoutCoordinate :=
  (List.range w).flatMap (fun x => (List.range h).map (fun y => ⟨x, y⟩))

/-- The loop body of Rust `PlacementSolution::get_possible_sites` over a list
of grid coordinates: skip occupied coordinates, panic (`none`) on a
coordinate missing from the layout's stored map (the Rust code calls
`self.layout.map.get(...).unwrap()`, not `FPGALayout::get`), keep free
coordinates whose site type matches. -/
def gatherSites (L : FPGALayout) (placed : List FPGALayoutCoordinate)
    (mt : MacroType) : List FPGALayoutCoordinate →
    Option (List FPGALayoutCoordinate)
  | [] => some []
  | c :: rest =>
    if c ∈ placed then gatherSites L placed mt rest
    else
      match layoutLookup c L.map with
      | none => none
      | some (FPGALayoutType.Macro t) =>
        if t = mt then (gatherSites L placed mt rest).map (fun l => c :: l)
        else gatherSites L placed mt rest
      | some FPGALayoutType.EMPTY => gatherSites L placed mt rest

/-- Rust `PlacementSolution::get_possible_sites`: all layout coordinates of
the requested type not occupied by any node of this state. -/
def PlacementSolution.get_possible_sites (s : PlacementSolution)
    (mt : MacroType) : Option (List FPGALayoutCoordinate) :=
  gatherSites s.layout (s.solution_map.map Prod.snd) mt
    (allCoords s.layout.width s.layout.height)

/-- Rust `PlacementSolution::place_node`: insert or overwrite. -/
def PlacementSolution.place_node (s : PlacementSolution) (n : NetlistNode)
    (c : FPGALayoutCoordinate) : PlacementSolution :=
  { s with solution_map := mapInsert n c s.solution_map }

/-- The type-compatibility loop of Rust `PlacementSolution::valid`: for each
entry, `layout.get(location).unwrap()` (`none` = panic on an out-of-bounds
location), `false` on an empty site or a mismatched macro type. -/
def typeCheck (L : FPGALayout) : SolutionMap → Option Bool
  | [] => some true
  | nc :: rest =>
    match L.get nc.2 with
    | none => none
    | some (FPGALayoutType.Macro t) =>
      if nc.1.macro_type = t then typeCheck L rest else some false
    | some FPGALayoutType.EMPTY => some false

/-- Rust `PlacementSolution::valid`: totality over the netlist, keys drawn
from the netlist's ids, no location used twice, no node used twice, and
type-compatibility of every placement (in the Rust order of checks). -/
def PlacementSolution.valid (s : PlacementSolution) : Option Bool :=
  if ¬ (∀ n ∈ s.netlist.nodes, (smLookup n s.solution_map).isSome = true) then
    some false
  else if ¬ (∀ kv ∈ s.solution_map,
      kv.1.id ∈ s.netlist.nodes.map NetlistNode.id) then some false
  else if ¬ (s.solution_map.map Prod.snd).Nodup then some false
  else if ¬ (s.solution_map.map Prod.fst).Nodup then some false
  else typeCheck s.layout s.solution_map

/-- Manhattan distance between two coordinates (the Rust `i32` arithmetic,
exact). -/
def manhattanDist (a b : FPGALayoutCoordinate) : Nat :=
  ((a.x : Int) - (b.x : Int)).natAbs + ((a.y : Int) - (b.y : Int)).natAbs

/-- The accumulation loop of Rust `PlacementSolution::cost_bb`: add each
edge's Manhattan distance, panicking (`none`) on an unplaced endpoint. -/
def costAux (m : SolutionMap) : List (NetlistNode × NetlistNode) → Nat →
    Option Nat
  | [], acc => some acc
  | e :: rest, acc =>
    match smLookup e.1 m, smLookup e.2 m with
    | some l1, some l2 => costAux m rest (acc + manhattanDist l1 l2)
    | _, _ => none

/-- Rust `PlacementSolution::cost_bb`: the sum over all netlist edges of the
Manhattan distance between the endpoints' coordinates (the `f32` sum is
exact for the integer totals of this model). -/
def PlacementSolution.cost_bb (s : PlacementSolution) : Option Nat :=
  costAux s.solution_map s.netlist.edges 0

/-- The node chosen by a random draw `i` over all netlist nodes (Rust's
`all_nodes().choose(&mut rng)` / indexing by `gen_range`). -/
def chosenNode (s : PlacementSolution) (i : Nat) : NetlistNode :=
  pick s.netlist.nodes i defNode

/-- The same-type pool of `action_swap`: all netlist nodes whose macro type
equals the chosen node's (the chosen node itself included). -/
def sameTypePool (s : PlacementSolution) (i : Nat) : List NetlistNode :=
  s.netlist.nodes.filter
    (fun n => decide (n.macro_type = (chosenNode s i).macro_type))

/-- Rust `PlacementSolution::action_move` with the two random draws made
explicit: node draw `i`, site draw `j`.  Empty netlist or empty site list is
a no-op; a panic inside `get_possible_sites` propagates. -/
def PlacementSolution.action_move (s : PlacementSolution) (i j : Nat) :
    Option PlacementSolution :=
  match s.netlist.nodes with
  | [] => some s
  | _ :: _ =>
    match s.get_possible_sites (chosenNode s i).macro_type with
    | none => none
    | some [] => some s
    | some (c :: cs) =>
      some { s with
        solution_map :=
          mapInsert (chosenNode s i) (pick (c :: cs) j defCoord)
            s.solution_map }

/-- Rust `PlacementSolution::action_swap` with the two random draws made
explicit: draw `i` for node A over all nodes, draw `j` for node B over the
same-type pool (which contains A itself).  If either node is unplaced the
map is untouched; the operator never panics. -/
def PlacementSolution.action_swap (s : PlacementSolution) (i j : Nat) :
    Option PlacementSolution :=
  match s.netlist.nodes with
  | [] => some s
  | _ :: _ =>
    match sameTypePool s i with
    | [] => some s
    | b0 :: bs =>
      match smLookup (chosenNode s i) s.solution_map,
          smLookup (pick (b0 :: bs) j defNode) s.solution_map with
      | some la, some lb =>
        some { s with
          solution_map := mapInsert (pick (b0 :: bs) j defNode) la
            (mapInsert (chosenNode s i) lb s.solution_map) }
      | _, _ => some s

/-- Distance of a coordinate to the (truncated-mean) centroid, the Rust
`(c.x as i32 - x_mean as i32).abs() + (c.y as i32 - y_mean as i32).abs()`. -/
def distTo (x_mean y_mean : Nat) (c : FPGALayoutCoordinate) : Nat :=
  ((c.x : Int) - (x_mean : Int)).natAbs + ((c.y : Int) - (y_mean : Int)).natAbs

/-- Sum of the x coordinates of the placed locations of the given nodes;
`none` (panic) if one of them is unplaced. -/
def sumCoordsX (m : SolutionMap) : List NetlistNode → Option Nat
  | [] => some 0
  | n :: rest =>
    match smLookup n m, sumCoordsX m rest with
    | some c, some sum => some (c.x + sum)
    | _, _ => none

/-- Sum of the y coordinates of the placed locations of the given nodes;
`none` (panic) if one of them is unplaced. -/
def sumCoordsY (m : SolutionMap) : List NetlistNode → Option Nat
  | [] => some 0
  | n :: rest =>
    match smLookup n m, sumCoordsY m rest with
    | some c, some sum => some (c.y + sum)
    | _, _ => none

/-- Rust's `iter().min_by(...)` over candidate sites by distance to the
centroid: `none` on an empty list, else the first minimum (the accumulator
is replaced only when the new element is strictly smaller). -/
def minByDist (x_mean y_mean : Nat) :
    List FPGALayoutCoordinate → Option FPGALayoutCoordinate
  | [] => none
  | c :: rest =>
    some (rest.foldl (fun best c2 =>
      if distTo x_mean y_mean best > distTo x_mean y_mean c2 then c2 else best) c)

/-- Rust `PlacementSolution::action_move_directed` with the random node draw
`i` explicit.  Panics (`none`) on an empty netlist, an unplaced node during
the mean computation, a panic in `get_possible_sites`, an empty candidate
list (the `min_by(...).unwrap()`), or an unplaced chosen node; a no-op when
the best candidate is strictly farther from the centroid than the current
location; otherwise relocates. -/
def PlacementSolution.action_move_directed (s : PlacementSolution) (i : Nat) :
    Option PlacementSolution :=
  match s.netlist.nodes with
  | [] => none
  | _ :: _ =>
    match sumCoordsX s.solution_map s.netlist.nodes,
        sumCoordsY s.solution_map s.netlist.nodes with
    | some sx, some sy =>
      match s.get_possible_sites (chosenNode s i).macro_type with
      | none => none
      | some sites =>
        match minByDist (sx / s.netlist.nodes.length)
            (sy / s.netlist.nodes.length) sites with
        | none => none
        | some closest =>
          match smLookup (chosenNode s i) s.solution_map with
          | none => none
          | some cur =>
            if distTo (sx / s.netlist.nodes.length)
                  (sy / s.netlist.nodes.length) closest >
                distTo (sx / s.netlist.nodes.length)
                  (sy / s.netlist.nodes.length) cur then
              some s
            else
              some { s with
                solution_map := mapInsert (chosenNode s i) closest
                  s.solution_map }
    | _, _ => none

/-- Rust `PlacementSolution::action`: dispatch to the three operators. -/
def PlacementSolution.action (s : PlacementSolution) (a : PlacementAction)
    (i j : Nat) : Option PlacementSolution :=
  match a with
  | PlacementAction.MOVE => s.action_move i j
  | PlacementAction.SWAP => s.action_swap i j
  | PlacementAction.MOVE_DIRECTED => s.action_move_directed i

/-- A draw from a nonempty pool is a member of the pool. -/
theorem pick_mem {α : Type} (l : List α) (i : Nat) (d : α) (h : l ≠ []) :
    pick l i d ∈ l := by
  have hlen : i % l.length < l.length :=
    Nat.mod_lt _ (List.length_pos.mpr h)
  rw [pick, List.getD_eq_getElem l d hlen]
  exact List.getElem_mem hlen

/-- Looking up the freshly inserted key. -/
theorem smLookup_mapInsert_self (k : NetlistNode) (v : FPGALayoutCoordinate)
    (m : SolutionMap) : smLookup k (mapInsert k v m) = some v := by
  induction m with
  | nil => simp [mapInsert, smLookup]
  | cons kv rest ih =>
    by_cases hk : kv.1 = k
    · have h1 : mapInsert k v (kv :: rest) = mapInsert k v rest := by
        simp [mapInsert, List.filter_cons, hk]
      rw [h1, ih]
    · have h1 : mapInsert k v (kv :: rest) = kv :: mapInsert k v rest := by
        simp [mapInsert, List.filter_cons, hk]
      rw [h1, smLookup, if_neg hk, ih]

/-- Looking up any other key after an insert. -/
theorem smLookup_mapInsert_ne (k k' : NetlistNode) (v : FPGALayoutCoordinate)
    (m : SolutionMap) (h : k' ≠ k) :
    smLookup k' (mapInsert k v m) = smLookup k' m := by
  induction m with
  | nil =>
    simp only [mapInsert, List.filter_nil, List.nil_append, smLookup]
    rw [if_neg (fun he => h he.symm)]
  | cons kv rest ih =>
    by_cases hk : kv.1 = k
    · have h1 : mapInsert k v (kv :: rest) = mapInsert k v rest := by
        simp [mapInsert, List.filter_cons, hk]
      have hne : ¬ kv.1 = k' := by rw [hk]; exact fun he => h he.symm
      rw [h1, ih, smLookup, if_neg hne]
    · have h1 : mapInsert k v (kv :: rest) = kv :: mapInsert k v rest := by
        simp [mapInsert, List.filter_cons, hk]
      rw [h1, smLookup, smLookup]
      by_cases hk' : kv.1 = k'
      · rw [if_pos hk', if_pos hk']
      · rw [if_neg hk', if_neg hk', ih]

/-- A successful lookup exhibits an entry of the map. -/
theorem smLookup_mem {k : NetlistNode} {v : FPGALayoutCoordinate}
    {m : SolutionMap} (h : smLookup k m = some v) : (k, v) ∈ m := by
  induction m with
  | nil => exact absurd h (by simp [smLookup])
  | cons kv rest ih =>
    rw [smLookup] at h
    by_cases hk : kv.1 = k
    · rw [if_pos hk] at h
      have hkv : kv = (k, v) := by
        obtain ⟨k0, v0⟩ := kv
        simp only at hk h
        rw [hk, Option.some.inj h]
      rw [← hkv]
      exact List.mem_cons_self _ _
    · rw [if_neg hk] at h
      exact List.mem_cons_of_mem _ (ih h)

/-- The entries after an insert: the old entries at other keys plus the new
binding. -/
theorem mem_mapInsert {kv : NetlistNode × FPGALayoutCoordinate}
    {k : NetlistNode} {v : FPGALayoutCoordinate} {m : SolutionMap} :
    kv ∈ mapInsert k v m ↔ (kv ∈ m ∧ kv.1 ≠ k) ∨ kv = (k, v) := by
  unfold mapInsert
  simp [List.mem_filter, List.mem_append]

/-- Keys stay duplicate-free under insert. -/
theorem keys_nodup_mapInsert (k : NetlistNode) (v : FPGALayoutCoordinate)
    (m : SolutionMap) (h : (m.map Prod.fst).Nodup) :
    ((mapInsert k v m).map Prod.fst).Nodup := by
  rw [mapInsert, List.map_append]
  rw [List.nodup_append]
  refine ⟨?_, List.nodup_singleton k, ?_⟩
  · exact h.sublist ((List.filter_sublist m).map Prod.fst)
  · intro a ha hb
    simp only [List.map_cons, List.map_nil, List.mem_singleton] at hb
    subst hb
    rcases List.mem_map.mp ha with ⟨e, he, hfst⟩
    rcases List.mem_filter.mp he with ⟨_, hcond⟩
    rw [hfst] at hcond
    exact absurd rfl (of_decide_eq_true hcond)

/-- Values of the map after an insert. -/
theorem vals_mapInsert (k : NetlistNode) (v : FPGALayoutCoordinate)
    (m : SolutionMap) :
    (mapInsert k v m).map Prod.snd =
      (m.filter (fun kv => decide (kv.1 ≠ k))).map Prod.snd ++ [v] := by
  rw [mapInsert, List.map_append]
  rfl

/-- With duplicate-free values, a value determines its key. -/
theorem val_unique {m : SolutionMap} (h : (m.map Prod.snd).Nodup)
    {k1 k2 : NetlistNode} {v : FPGALayoutCoordinate}
    (h1 : (k1, v) ∈ m) (h2 : (k2, v) ∈ m) : k1 = k2 := by
  have := List.inj_on_of_nodup_map h h1 h2 rfl
  exact congrArg Prod.fst this

/-- Values stay duplicate-free when the inserted value is fresh. -/
theorem vals_nodup_mapInsert (k : NetlistNode) (v : FPGALayoutCoordinate)
    (m : SolutionMap) (h : (m.map Prod.snd).Nodup)
    (hv : v ∉ m.map Prod.snd) :
    ((mapInsert k v m).map Prod.snd).Nodup := by
  rw [vals_mapInsert, List.nodup_append]
  refine ⟨h.sublist ((List.filter_sublist m).map Prod.snd), List.nodup_singleton v, ?_⟩
  intro a ha hb
  simp only [List.mem_singleton] at hb
  subst hb
  exact hv (((List.filter_sublist m).map Prod.snd).mem ha)

/-- A `gatherSites` call that returned (no panic) collects exactly the
unoccupied scanned coordinates whose stored layout type matches the
request, in scan order. -/
theorem gatherSites_eq_filter (L : FPGALayout)
    (placed : List FPGALayoutCoordinate) (mt : MacroType)
    (l out : List FPGALayoutCoordinate)
    (h : gatherSites L placed mt l = some out) :
    out = l.filter (fun c => decide (c ∉ placed) &&
      decide (layoutLookup c L.map = some (FPGALayoutType.Macro mt))) := by
  induction l generalizing out with
  | nil =>
    rw [gatherSites] at h
    rw [← Option.some.inj h]
    rfl
  | cons c0 rest ih =>
    rw [gatherSites] at h
    by_cases hp : c0 ∈ placed
    · rw [if_pos hp] at h
      rw [List.filter_cons]
      have hcond : (decide (c0 ∉ placed) &&
          decide (layoutLookup c0 L.map = some (FPGALayoutType.Macro mt))) = false := by
        simp [hp]
      rw [hcond, if_neg (by simp)]
      exact ih out h
    · rw [if_neg hp] at h
      split at h
      · exact absurd h (by simp)
      · rename_i t0 hl0
        by_cases ht : t0 = mt
        · rw [if_pos ht] at h
          rcases hrest : gatherSites L placed mt rest with _ | out0
          · rw [hrest] at h
            exact absurd h (by simp)
          · rw [hrest] at h
            simp only [Option.map_some'] at h
            rw [← Option.some.inj h, List.filter_cons]
            have hcond : (decide (c0 ∉ placed) &&
                decide (layoutLookup c0 L.map =
                  some (FPGALayoutType.Macro mt))) = true := by
              simp [hp, hl0, ht]
            rw [hcond, if_pos (by simp), ih out0 hrest]
        · rw [if_neg ht] at h
          rw [List.filter_cons]
          have hcond : (decide (c0 ∉ placed) &&
              decide (layoutLookup c0 L.map =
                some (FPGALayoutType.Macro mt))) = false := by
            simp [hl0, ht]
          rw [hcond, if_neg (by simp)]
          exact ih out h
      · rename_i hl0
        rw [List.filter_cons]
        have hcond : (decide (c0 ∉ placed) &&
            decide (layoutLookup c0 L.map =
              some (FPGALayoutType.Macro mt))) = false := by
          simp [hl0]
        rw [hcond, if_neg (by simp)]
        exact ih out h

/-- Membership in the result of a successful `gatherSites` call. -/
theorem gatherSites_mem (L : FPGALayout) (placed : List FPGALayoutCoordinate)
    (mt : MacroType) (l out : List FPGALayoutCoordinate)
    (h : gatherSites L placed mt l = some out) (c : FPGALayoutCoordinate) :
    c ∈ out ↔ c ∈ l ∧ c ∉ placed ∧
      layoutLookup c L.map = some (FPGALayoutType.Macro mt) := by
  rw [gatherSites_eq_filter L placed mt l out h, List.mem_filter]
  simp [and_assoc]

/-- Membership in the grid scan. -/
theorem mem_allCoords (w h : Nat) (c : FPGALayoutCoordinate) :
    c ∈ allCoords w h ↔ c.x < w ∧ c.y < h := by
  cases c with
  | mk x y =>
    rw [allCoords]
    simp only [List.mem_flatMap, List.mem_map, List.mem_range]
    constructor
    · rintro ⟨a, ha, b, hb, heq⟩
      cases heq
      exact ⟨ha, hb⟩
    · rintro ⟨hx, hy⟩
      exact ⟨x, hx, y, hy, rfl⟩

/-- The type-compatibility loop succeeds with `true` exactly when every
entry sits on an in-bounds site of its own macro type. -/
theorem typeCheck_eq_true_iff (L : FPGALayout) (m : SolutionMap) :
    typeCheck L m = some true ↔
      ∀ kv ∈ m, L.get kv.2 = some (FPGALayoutType.Macro kv.1.macro_type) := by
  induction m with
  | nil => simp [typeCheck]
  | cons nc rest ih =>
    rw [typeCheck]
    split
    · rename_i hg
      constructor
      · intro h; exact absurd h (by simp)
      · intro h
        have hx := h nc (List.mem_cons_self _ _)
        rw [hg] at hx
        exact absurd hx (by simp)
    · rename_i t hg
      by_cases ht : nc.1.macro_type = t
      · rw [if_pos ht, ih]
        constructor
        · intro h kv hkv
          rcases List.mem_cons.mp hkv with he | hr
          · subst he; rw [hg, ht]
          · exact h kv hr
        · intro h kv hkv
          exact h kv (List.mem_cons_of_mem _ hkv)
      · rw [if_neg ht]
        constructor
        · intro h; exact absurd h (by simp)
        · intro h
          have hx := h nc (List.mem_cons_self _ _)
          rw [hg] at hx
          exact absurd (FPGALayoutType.Macro.inj (Option.some.inj hx)).symm ht
    · rename_i hg
      constructor
      · intro h; exact absurd h (by simp)
      · intro h
        have hx := h nc (List.mem_cons_self _ _)
        rw [hg] at hx
        exact absurd (Option.some.inj hx) (by simp)

/-- The conjunction of the five checks of Rust `PlacementSolution::valid`,
as propositions over the embedding. -/
def ValidProps (s : PlacementSolution) : Prop :=
  (∀ n ∈ s.netlist.nodes, (smLookup n s.solution_map).isSome = true) ∧
  (∀ kv ∈ s.solution_map, kv.1.id ∈ s.netlist.nodes.map NetlistNode.id) ∧
  (s.solution_map.map Prod.snd).Nodup ∧
  (s.solution_map.map Prod.fst).Nodup ∧
  (∀ kv ∈ s.solution_map,
    s.layout.get kv.2 = some (FPGALayoutType.Macro kv.1.macro_type))

/-- Rust `valid()` returns `true` exactly when the five invariant checks
hold. -/
theorem valid_eq_some_true_iff (s : PlacementSolution) :
    s.valid = some true ↔ ValidProps s := by
  rw [PlacementSolution.valid, ValidProps]
  by_cases h1 : ∀ n ∈ s.netlist.nodes, (smLookup n s.solution_map).isSome = true
  · rw [if_neg (not_not_intro h1)]
    by_cases h2 : ∀ kv ∈ s.solution_map,
        kv.1.id ∈ s.netlist.nodes.map NetlistNode.id
    · rw [if_neg (not_not_intro h2)]
      by_cases h3 : (s.solution_map.map Prod.snd).Nodup
      · rw [if_neg (not_not_intro h3)]
        by_cases h4 : (s.solution_map.map Prod.fst).Nodup
        · rw [if_neg (not_not_intro h4)]
          rw [typeCheck_eq_true_iff]
          constructor
          · intro h5
            exact ⟨h1, h2, h3, h4, h5⟩
          · intro hx
            exact hx.2.2.2.2
        · rw [if_pos h4]
          constructor
          · intro hx
            exact absurd hx (by simp)
          · intro hx
            exact absurd hx.2.2.2.1 h4
      · rw [if_pos h3]
        constructor
        · intro hx
          exact absurd hx (by simp)
        · intro hx
          exact absurd hx.2.2.1 h3
    · rw [if_pos h2]
      constructor
      · intro hx
        exact absurd hx (by simp)
      · intro hx
        exact absurd hx.2.1 h2
  · rw [if_pos h1]
    constructor
    · intro hx
      exact absurd hx (by simp)
    · intro hx
      exact absurd hx.1 h1

/-- Re-inserting over the same key keeps only the second insert. -/
theorem mapInsert_mapInsert_self (k : NetlistNode)
    (v v' : FPGALayoutCoordinate) (m : SolutionMap) :
    mapInsert k v' (mapInsert k v m) = mapInsert k v' m := by
  simp only [mapInsert, List.filter_append, List.filter_filter]
  simp

/-- The two inserts of a swap at distinct keys, unfolded. -/
theorem double_insert_eq (m : SolutionMap) (a b : NetlistNode)
    (la lb : FPGALayoutCoordinate) (hab : a ≠ b) :
    mapInsert b la (mapInsert a lb m) =
      ((m.filter (fun kv => decide (kv.1 ≠ a))).filter
        (fun kv => decide (kv.1 ≠ b))) ++ [(a, lb), (b, la)] := by
  unfold mapInsert
  rw [List.filter_append]
  have h1 : List.filter (fun kv => decide (kv.1 ≠ b)) [(a, lb)] = [(a, lb)] := by
    simp [hab]
  rw [h1, List.append_assoc]
  rfl

/-- Inserting a netlist node at a fresh, type-correct coordinate preserves
all five validity checks. -/
theorem validProps_insert (s : PlacementSolution) (n : NetlistNode)
    (c : FPGALayoutCoordinate) (hv : ValidProps s)
    (hn : n ∈ s.netlist.nodes)
    (hfresh : c ∉ s.solution_map.map Prod.snd)
    (htype : s.layout.get c = some (FPGALayoutType.Macro n.macro_type)) :
    ValidProps { s with solution_map := mapInsert n c s.solution_map } := by
  obtain ⟨htot, hids, hvnd, hknd, hty⟩ := hv
  refine ⟨?_, ?_, ?_, ?_, ?_⟩
  · intro n' hn'
    by_cases he : n' = n
    · subst he
      rw [smLookup_mapInsert_self]
      rfl
    · rw [smLookup_mapInsert_ne _ _ _ _ he]
      exact htot n' hn'
  · intro kv hkv
    rcases mem_mapInsert.mp hkv with ⟨hold, _⟩ | hnew
    · exact hids kv hold
    · subst hnew
      exact List.mem_map_of_mem NetlistNode.id hn
  · exact vals_nodup_mapInsert n c s.solution_map hvnd hfresh
  · exact keys_nodup_mapInsert n c s.solution_map hknd
  · intro kv hkv
    rcases mem_mapInsert.mp hkv with ⟨hold, _⟩ | hnew
    · exact hty kv hold
    · subst hnew
      exact htype

/-- Re-inserting a node at its own current coordinate preserves all five
validity checks. -/
theorem validProps_reinsert (s : PlacementSolution) (n : NetlistNode)
    (c : FPGALayoutCoordinate) (hv : ValidProps s)
    (hn : n ∈ s.netlist.nodes)
    (hlook : smLookup n s.solution_map = some c) :
    ValidProps { s with solution_map := mapInsert n c s.solution_map } := by
  obtain ⟨htot, hids, hvnd, hknd, hty⟩ := hv
  have hmem : (n, c) ∈ s.solution_map := smLookup_mem hlook
  refine ⟨?_, ?_, ?_, ?_, ?_⟩
  · intro n' hn'
    by_cases he : n' = n
    · subst he
      rw [smLookup_mapInsert_self]
      rfl
    · rw [smLookup_mapInsert_ne _ _ _ _ he]
      exact htot n' hn'
  · intro kv hkv
    rcases mem_mapInsert.mp hkv with ⟨hold, _⟩ | hnew
    · exact hids kv hold
    · subst hnew
      exact List.mem_map_of_mem NetlistNode.id hn
  · rw [vals_mapInsert, List.nodup_append]
    refine ⟨hvnd.sublist ((List.filter_sublist s.solution_map).map Prod.snd),
      List.nodup_singleton c, ?_⟩
    intro v hvf hvs
    simp only [List.mem_singleton] at hvs
    subst hvs
    rcases List.mem_map.mp hvf with ⟨kv, hkvf, hsnd⟩
    rcases List.mem_filter.mp hkvf with ⟨hkvm, hcond⟩
    have hkeq : kv.1 = n := by
      have : kv = (kv.1, kv.2) := rfl
      rw [this, hsnd] at hkvm
      exact val_unique hvnd hkvm hmem
    exact absurd hkeq (of_decide_eq_true hcond)
  · exact keys_nodup_mapInsert n c s.solution_map hknd
  · intro kv hkv
    rcases mem_mapInsert.mp hkv with ⟨hold, _⟩ | hnew
    · exact hty kv hold
    · subst hnew
      exact hty (n, c) hmem

/-- Exchanging the coordinates of two placed same-type netlist nodes (the
two inserts of `action_swap`) preserves all five validity checks. -/
theorem validProps_swap (s : PlacementSolution) (a b : NetlistNode)
    (la lb : FPGALayoutCoordinate) (hv : ValidProps s)
    (ha : a ∈ s.netlist.nodes) (hb : b ∈ s.netlist.nodes)
    (hty : b.macro_type = a.macro_type)
    (hla : smLookup a s.solution_map = some la)
    (hlb : smLookup b s.solution_map = some lb) :
    ValidProps { s with
      solution_map := mapInsert b la (mapInsert a lb s.solution_map) } := by
  by_cases hab : a = b
  · subst hab
    rw [mapInsert_mapInsert_self]
    exact validProps_reinsert s a la hv ha hla
  · obtain ⟨htot, hids, hvnd, hknd, hty5⟩ := hv
    have hma : (a, la) ∈ s.solution_map := smLookup_mem hla
    have hmb : (b, lb) ∈ s.solution_map := smLookup_mem hlb
    refine ⟨?_, ?_, ?_, ?_, ?_⟩
    · intro n' hn'
      by_cases heb : n' = b
      · subst heb
        rw [smLookup_mapInsert_self]
        rfl
      · rw [smLookup_mapInsert_ne _ _ _ _ heb]
        by_cases hea : n' = a
        · subst hea
          rw [smLookup_mapInsert_self]
          rfl
        · rw [smLookup_mapInsert_ne _ _ _ _ hea]
          exact htot n' hn'
    · intro kv hkv
      rcases mem_mapInsert.mp hkv with ⟨hx, _⟩ | hnew
      · rcases mem_mapInsert.mp hx with ⟨hold, _⟩ | hnew2
        · exact hids kv hold
        · subst hnew2
          exact List.mem_map_of_mem NetlistNode.id ha
      · subst hnew
        exact List.mem_map_of_mem NetlistNode.id hb
    · rw [double_insert_eq s.solution_map a b la lb hab, List.map_append,
        List.nodup_append]
      have hsub : (((s.solution_map.filter (fun kv => decide (kv.1 ≠ a))).filter
          (fun kv => decide (kv.1 ≠ b))).map Prod.snd).Sublist
          (s.solution_map.map Prod.snd) :=
        ((List.filter_sublist _).trans (List.filter_sublist _)).map Prod.snd
      refine ⟨hvnd.sublist hsub, ?_, ?_⟩
      · have hne : lb ≠ la := by
          intro he
          rw [he] at hmb
          exact hab (val_unique hvnd hma hmb)
        simp [hne]
      · intro v hvf hvs
        simp only [List.map_cons, List.map_nil, List.mem_cons,
          List.mem_singleton, List.not_mem_nil, or_false] at hvs
        rcases List.mem_map.mp hvf with ⟨kv, hkvf, hsnd⟩
        rcases List.mem_filter.mp hkvf with ⟨hkvf2, hcondb⟩
        rcases List.mem_filter.mp hkvf2 with ⟨hkvm, hconda⟩
        have hka : kv.1 ≠ a := of_decide_eq_true hconda
        have hkb : kv.1 ≠ b := of_decide_eq_true hcondb
        have hkvm2 : (kv.1, kv.2) ∈ s.solution_map := hkvm
        rcases hvs with hlb2 | hla2
        · rw [hsnd, hlb2] at hkvm2
          exact hkb (val_unique hvnd hkvm2 hmb)
        · rw [hsnd, hla2] at hkvm2
          exact hka (val_unique hvnd hkvm2 hma)
    · exact keys_nodup_mapInsert _ _ _ (keys_nodup_mapInsert _ _ _ hknd)
    · intro kv hkv
      rcases mem_mapInsert.mp hkv with ⟨hx, _⟩ | hnew
      · rcases mem_mapInsert.mp hx with ⟨hold, _⟩ | hnew2
        · exact hty5 kv hold
        · subst hnew2
          rw [← hty]
          exact hty5 (b, lb) hmb
      · subst hnew
        rw [hty]
        exact hty5 (a, la) hma

/-- The fold inside `minByDist` yields its start value or a list element. -/
theorem minByDist_foldl_mem (mx my : Nat)
    (rest : List FPGALayoutCoordinate) (acc : FPGALayoutCoordinate) :
    rest.foldl (fun best c2 =>
        if distTo mx my best > distTo mx my c2 then c2 else best) acc = acc ∨
    rest.foldl (fun best c2 =>
        if distTo mx my best > distTo mx my c2 then c2 else best) acc ∈ rest := by
  induction rest generalizing acc with
  | nil => exact Or.inl rfl
  | cons r rest ih =>
    rw [List.foldl_cons]
    by_cases hc : distTo mx my acc > distTo mx my r
    · rw [if_pos hc]
      rcases ih r with he | hm
      · refine Or.inr ?_
        rw [he]
        exact List.mem_cons_self _ _
      · exact Or.inr (List.mem_cons_of_mem _ hm)
    · rw [if_neg hc]
      rcases ih acc with he | hm
      · exact Or.inl he
      · exact Or.inr (List.mem_cons_of_mem _ hm)

/-- `minByDist` returns an element of its list. -/
theorem minByDist_mem (mx my : Nat) (l : List FPGALayoutCoordinate)
    (c : FPGALayoutCoordinate) (h : minByDist mx my l = some c) : c ∈ l := by
  cases l with
  | nil => exact absurd h (by simp [minByDist])
  | cons c0 rest =>
    rw [minByDist] at h
    have heq := Option.some.inj h
    rcases minByDist_foldl_mem mx my rest c0 with he | hm
    · rw [he] at heq
      rw [← heq]
      exact List.mem_cons_self _ _
    · rw [← heq]
      exact List.mem_cons_of_mem _ hm

/-- `FPGALayout::get` on an in-bounds coordinate present in the stored
map. -/
theorem layout_get_of_lookup (L : FPGALayout) (c : FPGALayoutCoordinate)
    (t : FPGALayoutType) (hx : c.x < L.width) (hy : c.y < L.height)
    (hl : layoutLookup c L.map = some t) : L.get c = some t := by
  rw [FPGALayout.get, if_neg (by omega), hl]

/-- The facts `validProps_insert` needs about a site drawn from a successful
`get_possible_sites` call. -/
theorem possible_site_facts (s : PlacementSolution) (mt : MacroType)
    (sites : List FPGALayoutCoordinate) (c : FPGALayoutCoordinate)
    (hsites : s.get_possible_sites mt = some sites) (hc : c ∈ sites) :
    c ∉ s.solution_map.map Prod.snd ∧
      s.layout.get c = some (FPGALayoutType.Macro mt) := by
  rw [PlacementSolution.get_possible_sites] at hsites
  have hmem := (gatherSites_mem _ _ _ _ _ hsites c).mp hc
  obtain ⟨hall, hfree, hlook⟩ := hmem
  have hb := (mem_allCoords _ _ c).mp hall
  exact ⟨hfree, layout_get_of_lookup s.layout c _ hb.1 hb.2 hlook⟩

/-- `action_move` preserves validity. -/
theorem action_move_preserves (s s' : PlacementSolution) (i j : Nat)
    (hv : s.valid = some true) (h : s.action_move i j = some s') :
    s'.valid = some true := by
  rw [PlacementSolution.action_move] at h
  split at h
  · rw [← Option.some.inj h]
    exact hv
  · rename_i n0 ns hn
    split at h
    · exact absurd h (by simp)
    · rw [← Option.some.inj h]
      exact hv
    · rename_i c cs hsites
      rw [← Option.some.inj h]
      rw [valid_eq_some_true_iff] at hv ⊢
      have hnn : s.netlist.nodes ≠ [] := by rw [hn]; simp
      have hnode : chosenNode s i ∈ s.netlist.nodes :=
        pick_mem s.netlist.nodes i defNode hnn
      have hcmem : pick (c :: cs) j defCoord ∈ c :: cs :=
        pick_mem (c :: cs) j defCoord (by simp)
      have hfacts := possible_site_facts s (chosenNode s i).macro_type
        (c :: cs) (pick (c :: cs) j defCoord) hsites hcmem
      exact validProps_insert s (chosenNode s i) (pick (c :: cs) j defCoord)
        hv hnode hfacts.1 hfacts.2

/-- `action_swap` preserves validity. -/
theorem action_swap_preserves (s s' : PlacementSolution) (i j : Nat)
    (hv : s.valid = some true) (h : s.action_swap i j = some s') :
    s'.valid = some true := by
  rw [PlacementSolution.action_swap] at h
  split at h
  · rw [← Option.some.inj h]
    exact hv
  · rename_i n0 ns hn
    split at h
    · rw [← Option.some.inj h]
      exact hv
    · rename_i b0 bs hpool
      split at h
      · rename_i la lb hla hlb
        rw [← Option.some.inj h]
        rw [valid_eq_some_true_iff] at hv ⊢
        have hnn : s.netlist.nodes ≠ [] := by rw [hn]; simp
        have hnode : chosenNode s i ∈ s.netlist.nodes :=
          pick_mem s.netlist.nodes i defNode hnn
        have hbpick : pick (b0 :: bs) j defNode ∈ b0 :: bs :=
          pick_mem (b0 :: bs) j defNode (by simp)
        have hbpool : pick (b0 :: bs) j defNode ∈ sameTypePool s i := by
          rw [hpool]
          exact hbpick
        rw [sameTypePool] at hbpool
        have hbfacts := List.mem_filter.mp hbpool
        exact validProps_swap s (chosenNode s i) (pick (b0 :: bs) j defNode)
          la lb hv hnode hbfacts.1 (of_decide_eq_true hbfacts.2) hla hlb
      all_goals
        rw [← Option.some.inj h]
        exact hv

/-- `action_move_directed` preserves validity whenever it returns. -/
theorem action_move_directed_preserves (s s' : PlacementSolution) (i : Nat)
    (hv : s.valid = some true) (h : s.action_move_directed i = some s') :
    s'.valid = some true := by
  rw [PlacementSolution.action_move_directed] at h
  split at h
  · exact absurd h (by simp)
  · rename_i n0 ns hn
    split at h
    · rename_i sx sy hsx hsy
      split at h
      · exact absurd h (by simp)
      · rename_i sites hsites
        split at h
        · exact absurd h (by simp)
        · rename_i closest hmin
          split at h
          · exact absurd h (by simp)
          · rename_i cur hcur
            split at h
            · rw [← Option.some.inj h]
              exact hv
            · rw [← Option.some.inj h]
              rw [valid_eq_some_true_iff] at hv ⊢
              have hnn : s.netlist.nodes ≠ [] := by rw [hn]; simp
              have hnode : chosenNode s i ∈ s.netlist.nodes :=
                pick_mem s.netlist.nodes i defNode hnn
              have hcmem : closest ∈ sites := minByDist_mem _ _ _ _ hmin
              have hfacts := possible_site_facts s
                (chosenNode s i).macro_type sites closest hsites hcmem
              exact validProps_insert s (chosenNode s i) closest hv hnode
                hfacts.1 hfacts.2
    · exact absurd h (by simp)

/-- C1: every placement state valid in the sense of `PlacementSolution::valid`
(total, injective over locations and keys, type-compatible and in-bounds)
stays so across any of the three move operators dispatched via `action`:
whenever the operator returns a state, that state is again valid, so the
node→coordinate mapping is injective and fully type-compatible at the start
and end of every search step. -/
theorem PlacementSolution.action_preserves_valid (s s' : PlacementSolution)
    (a : PlacementAction) (i j : Nat) (hv : s.valid = some true)
    (h : s.action a i j = some s') : s'.valid = some true := by
  cases a with
  | MOVE => exact action_move_preserves s s' i j hv h
  | SWAP => exact action_swap_preserves s s' i j hv h
  | MOVE_DIRECTED =>
    exact action_move_directed_preserves s s' i hv h

/-- Witness fixture: a 2×1 all-CLB layout. -/
def wLayout : FPGALayout :=
  ⟨[(⟨0, 0⟩, FPGALayoutType.Macro MacroType.CLB),
    (⟨1, 0⟩, FPGALayoutType.Macro MacroType.CLB)], 2, 1⟩

/-- Witness fixture: a single CLB node. -/
def wNode0 : NetlistNode := ⟨0, MacroType.CLB⟩

/-- Witness fixture: a netlist holding only `wNode0`. -/
def wNetlist : NetlistGraph := ⟨[wNode0], []⟩

/-- Witness fixture: `wNode0` placed at the origin of `wLayout`. -/
def wSol : PlacementSolution := ⟨wLayout, wNetlist, [(wNode0, ⟨0, 0⟩)]⟩

/-- Witness fixture: `wNode0` moved to the other CLB site. -/
def wSol' : PlacementSolution := ⟨wLayout, wNetlist, [(wNode0, ⟨1, 0⟩)]⟩

/-- Witness for C1: a concrete valid state stays valid across a MOVE. -/
theorem PlacementSolution.action_preserves_valid_witness :
    wSol'.valid = some true :=
  PlacementSolution.action_preserves_valid wSol wSol' PlacementAction.MOVE 0 0
    (by decide) (by decide)

/-- C9: `action_swap` never panics on any (possibly partial) state: it
always returns a state; the same-type pool contains the chosen node itself;
when either selected node has no assigned coordinate the map is returned
completely unchanged; and when the partner draw coincides with the chosen
node the swap leaves the mapping extensionally unchanged. -/
theorem PlacementSolution.action_swap_safe (s : PlacementSolution) (i j : Nat) :
    (∃ s', s.action_swap i j = some s') ∧
    (s.netlist.nodes ≠ [] → chosenNode s i ∈ sameTypePool s i) ∧
    (∀ b0 bs, sameTypePool s i = b0 :: bs →
      (smLookup (chosenNode s i) s.solution_map = none ∨
       smLookup (pick (b0 :: bs) j defNode) s.solution_map = none) →
      s.action_swap i j = some s) ∧
    (∀ b0 bs s', sameTypePool s i = b0 :: bs →
      pick (b0 :: bs) j defNode = chosenNode s i →
      s.action_swap i j = some s' →
      ∀ k, smLookup k s'.solution_map = smLookup k s.solution_map) := by
  refine ⟨?_, ?_, ?_, ?_⟩
  · rw [PlacementSolution.action_swap]
    split
    · exact ⟨s, rfl⟩
    · split
      · exact ⟨s, rfl⟩
      · split
        · exact ⟨_, rfl⟩
        · exact ⟨s, rfl⟩
  · intro h
    rw [sameTypePool]
    refine List.mem_filter.mpr ⟨?_, by simp⟩
    rw [chosenNode]
    exact pick_mem _ _ _ h
  · intro b0 bs hpool hnone
    rw [PlacementSolution.action_swap]
    split
    · rfl
    · split
      · rfl
      · rename_i b0' bs' hpool'
        rw [hpool] at hpool'
        obtain ⟨hb0, hbs⟩ := List.cons.inj hpool'
        subst hb0
        subst hbs
        split
        · rename_i la lb hla hlb
          rcases hnone with hc | hc
          · rw [hc] at hla
            exact absurd hla (by simp)
          · rw [hc] at hlb
            exact absurd hlb (by simp)
        · rfl
  · intro b0 bs s' hpool hba h
    rw [PlacementSolution.action_swap] at h
    split at h
    · rename_i hnil
      rw [sameTypePool, chosenNode, hnil] at hpool
      exact absurd hpool (by simp)
    · split at h
      · rename_i hpool'
        rw [hpool'] at hpool
        exact absurd hpool (by simp)
      · rename_i b0' bs' hpool'
        rw [hpool] at hpool'
        obtain ⟨hb0, hbs⟩ := List.cons.inj hpool'
        subst hb0
        subst hbs
        split at h
        · rename_i la lb hla hlb
          have hmap : s'.solution_map =
              mapInsert (pick (b0 :: bs) j defNode) la
                (mapInsert (chosenNode s i) lb s.solution_map) := by
            rw [← Option.some.inj h]
          intro k
          rw [hmap, hba, mapInsert_mapInsert_self]
          by_cases hk : k = chosenNode s i
          · subst hk
            rw [smLookup_mapInsert_self, hla]
          · rw [smLookup_mapInsert_ne _ _ _ _ hk]
        · rw [← Option.some.inj h]
          intro k
          rfl

/-- Witness for C9: the no-panic part at a concrete state and draws. -/
theorem PlacementSolution.action_swap_safe_witness :
    ∃ s', wSol.action_swap 0 0 = some s' :=
  (PlacementSolution.action_swap_safe wSol 0 0).1

/-- Witness fixture: a second CLB node. -/
def wNode1 : NetlistNode := ⟨1, MacroType.CLB⟩

/-- Witness fixture: two CLB nodes joined by one edge. -/
def wNetlist2 : NetlistGraph := ⟨[wNode0, wNode1], [(wNode0, wNode1)]⟩

/-- Witness fixture: a 4×1 all-CLB layout. -/
def wLayout4 : FPGALayout :=
  ⟨[(⟨0, 0⟩, FPGALayoutType.Macro MacroType.CLB),
    (⟨1, 0⟩, FPGALayoutType.Macro MacroType.CLB),
    (⟨2, 0⟩, FPGALayoutType.Macro MacroType.CLB),
    (⟨3, 0⟩, FPGALayoutType.Macro MacroType.CLB)], 4, 1⟩

/-- Witness fixture: the two nodes at (1,0) and (2,0) on the 4×1 layout
(truncated-mean centroid (1,0)). -/
def wSol2 : PlacementSolution :=
  ⟨wLayout4, wNetlist2, [(wNode0, ⟨1, 0⟩), (wNode1, ⟨2, 0⟩)]⟩

/-- Witness fixture: a 1×1 CLB layout. -/
def wLayout1 : FPGALayout := ⟨[(⟨0, 0⟩, FPGALayoutType.Macro MacroType.CLB)], 1, 1⟩

/-- Witness fixture: the single node occupying the only CLB site (zero free
sites of its type). -/
def wSolFull : PlacementSolution := ⟨wLayout1, wNetlist, [(wNode0, ⟨0, 0⟩)]⟩

/-- Witness fixture: both nodes placed, filling every CLB site of the 2×1
layout (zero free sites of their type). -/
def wSolPair : PlacementSolution :=
  ⟨wLayout, wNetlist2, [(wNode0, ⟨0, 0⟩), (wNode1, ⟨1, 0⟩)]⟩

/-- The accumulation loop of `cost_bb` equals the accumulator plus the sum
of per-edge Manhattan distances, when every endpoint is placed. -/
theorem costAux_eq_sum (m : SolutionMap)
    (edges : List (NetlistNode × NetlistNode)) (acc : Nat)
    (h : ∀ e ∈ edges, (smLookup e.1 m).isSome = true ∧
      (smLookup e.2 m).isSome = true) :
    costAux m edges acc = some (acc + (edges.map (fun e =>
      manhattanDist ((smLookup e.1 m).getD defCoord)
        ((smLookup e.2 m).getD defCoord))).sum) := by
  induction edges generalizing acc with
  | nil => simp [costAux]
  | cons e rest ih =>
    have he := h e (List.mem_cons_self _ _)
    rcases hl1 : smLookup e.1 m with _ | l1
    · rw [hl1] at he
      simp at he
    · rcases hl2 : smLookup e.2 m with _ | l2
      · rw [hl2] at he
        simp at he
      · rw [costAux, hl1, hl2]
        show costAux m rest (acc + manhattanDist l1 l2) = _
        rw [ih _ (fun e' he' => h e' (List.mem_cons_of_mem _ he'))]
        simp [hl1, hl2, Nat.add_assoc]

/-- C3: on a state where both endpoints of every netlist edge are placed,
`cost_bb` returns exactly the sum over all edges of the Manhattan distance
between the endpoints' coordinates — each edge contributes one independent
summand — and, being a pure function of the mapping, calling it twice on
the same unmutated state yields the identical value. -/
theorem PlacementSolution.cost_bb_manhattan_sum (s : PlacementSolution)
    (h : ∀ e ∈ s.netlist.edges, (smLookup e.1 s.solution_map).isSome = true ∧
      (smLookup e.2 s.solution_map).isSome = true) :
    s.cost_bb = some ((s.netlist.edges.map (fun e =>
      manhattanDist ((smLookup e.1 s.solution_map).getD defCoord)
        ((smLookup e.2 s.solution_map).getD defCoord))).sum) := by
  rw [PlacementSolution.cost_bb, costAux_eq_sum _ _ _ h, Nat.zero_add]

/-- Witness for C3 at a concrete totally-placed two-node state. -/
theorem PlacementSolution.cost_bb_manhattan_sum_witness :
    wSol2.cost_bb = some ((wSol2.netlist.edges.map (fun e =>
      manhattanDist ((smLookup e.1 wSol2.solution_map).getD defCoord)
        ((smLookup e.2 wSol2.solution_map).getD defCoord))).sum) :=
  PlacementSolution.cost_bb_manhattan_sum wSol2 (by decide)

/-- Counterexample for C4: in `wSol2` the truncated-mean centroid is (1,0);
drawing node `wNode1` (current distance 1 to the centroid), the closest
possible site (0,0) has the same distance 1 — yet `action_move_directed`
relocates the node there instead of leaving the state unchanged, because
the code only rejects the move when the new distance is strictly larger. -/
theorem action_move_directed_equal_distance_moves :
    distTo 1 0 ⟨0, 0⟩ = distTo 1 0 ⟨2, 0⟩ ∧
    smLookup wNode1 wSol2.solution_map = some ⟨2, 0⟩ ∧
    wSol2.action_move_directed 1 =
      some ⟨wLayout4, wNetlist2, [(wNode0, ⟨1, 0⟩), (wNode1, ⟨0, 0⟩)]⟩ ∧
    wSol2.action_move_directed 1 ≠ some wSol2 := by decide

/-- C4 (amended): `action_move_directed` relocates the chosen node to its
possible site closest to the truncated-mean centroid whenever that site's
distance is less than or equal to the node's current distance, and is a
no-op exactly when the best candidate distance strictly exceeds the current
distance (the code's rejection test is `new_distance > current_distance`,
so an equal-distance candidate is accepted, not rejected). -/
theorem PlacementSolution.action_move_directed_threshold
    (s s' : PlacementSolution) (i sx sy : Nat)
    (sites : List FPGALayoutCoordinate) (closest cur : FPGALayoutCoordinate)
    (hsx : sumCoordsX s.solution_map s.netlist.nodes = some sx)
    (hsy : sumCoordsY s.solution_map s.netlist.nodes = some sy)
    (hsites : s.get_possible_sites (chosenNode s i).macro_type = some sites)
    (hmin : minByDist (sx / s.netlist.nodes.length)
      (sy / s.netlist.nodes.length) sites = some closest)
    (hcur : smLookup (chosenNode s i) s.solution_map = some cur)
    (h : s.action_move_directed i = some s') :
    (distTo (sx / s.netlist.nodes.length) (sy / s.netlist.nodes.length)
        closest >
      distTo (sx / s.netlist.nodes.length) (sy / s.netlist.nodes.length)
        cur → s' = s) ∧
    (distTo (sx / s.netlist.nodes.length) (sy / s.netlist.nodes.length)
        closest ≤
      distTo (sx / s.netlist.nodes.length) (sy / s.netlist.nodes.length)
        cur → s' = { s with
          solution_map := mapInsert (chosenNode s i) closest
            s.solution_map }) := by
  rw [PlacementSolution.action_move_directed] at h
  split at h
  · exact absurd h (by simp)
  · split at h
    · rename_i sx' sy' hsx' hsy'
      rw [hsx] at hsx'
      rw [hsy] at hsy'
      obtain rfl : sx = sx' := Option.some.inj hsx'
      obtain rfl : sy = sy' := Option.some.inj hsy'
      split at h
      · exact absurd h (by simp)
      · rename_i sites' hsites'
        rw [hsites] at hsites'
        obtain rfl : sites = sites' := Option.some.inj hsites'
        split at h
        · exact absurd h (by simp)
        · rename_i closest' hmin'
          rw [hmin] at hmin'
          obtain rfl : closest = closest' := Option.some.inj hmin'
          split at h
          · exact absurd h (by simp)
          · rename_i cur' hcur'
            rw [hcur] at hcur'
            obtain rfl : cur = cur' := Option.some.inj hcur'
            split at h
            · rename_i hgt
              constructor
              · intro _
                exact (Option.some.inj h).symm
              · intro hle
                exact absurd hgt (by omega)
            · rename_i hngt
              constructor
              · intro hgt
                exact absurd hgt hngt
              · intro _
                exact (Option.some.inj h).symm
    · exact absurd h (by simp)

/-- Witness for C4 (amended) at the concrete equal-distance instance. -/
theorem PlacementSolution.action_move_directed_threshold_witness :
    (distTo 1 0 ⟨0, 0⟩ > distTo 1 0 ⟨2, 0⟩ →
      (⟨wLayout4, wNetlist2, [(wNode0, ⟨1, 0⟩), (wNode1, ⟨0, 0⟩)]⟩ :
        PlacementSolution) = wSol2) ∧
    (distTo 1 0 ⟨0, 0⟩ ≤ distTo 1 0 ⟨2, 0⟩ →
      (⟨wLayout4, wNetlist2, [(wNode0, ⟨1, 0⟩), (wNode1, ⟨0, 0⟩)]⟩ :
        PlacementSolution) = { wSol2 with
          solution_map := mapInsert (chosenNode wSol2 1) ⟨0, 0⟩
            wSol2.solution_map }) :=
  PlacementSolution.action_move_directed_threshold wSol2
    ⟨wLayout4, wNetlist2, [(wNode0, ⟨1, 0⟩), (wNode1, ⟨0, 0⟩)]⟩ 1 3 0
    [⟨0, 0⟩, ⟨3, 0⟩] ⟨0, 0⟩ ⟨2, 0⟩ (by decide) (by decide) (by decide)
    (by decide) (by decide) (by decide)

/-- Counterexample for C5: two valid states whose chosen node's type has
zero free sites.  On `wSolFull`, `action_move_directed` panics (`none`,
the `min_by(...).unwrap()` on the empty candidate list) instead of
terminating normally; on `wSolPair`, `action_swap` terminates but exchanges
the two nodes rather than leaving the state unchanged. -/
theorem operators_empty_neighborhood_cex :
    (wSolFull.valid = some true ∧
     wSolFull.get_possible_sites (chosenNode wSolFull 0).macro_type =
       some [] ∧
     wSolFull.action_move_directed 0 = none) ∧
    (wSolPair.valid = some true ∧
     wSolPair.get_possible_sites (chosenNode wSolPair 0).macro_type =
       some [] ∧
     wSolPair.action_swap 0 1 =
       some ⟨wLayout, wNetlist2, [(wNode0, ⟨1, 0⟩), (wNode1, ⟨0, 0⟩)]⟩ ∧
     wSolPair.action_swap 0 1 ≠ some wSolPair) := by decide

/-- C5 (amended): in every valid state whose chosen node's type has zero
free sites, `action_move` terminates normally as a no-op returning the
state unchanged, and `action_swap` terminates normally (returning some
state, though it may exchange two placed same-type nodes); but
`action_move_directed` aborts (`none`: the `min_by(...).unwrap()` panics on
the empty candidate list) rather than no-opping. -/
theorem operators_empty_neighborhood_behavior (s : PlacementSolution)
    (i j : Nat) (hv : s.valid = some true) (hnodes : s.netlist.nodes ≠ [])
    (hempty : s.get_possible_sites (chosenNode s i).macro_type = some []) :
    s.action_move i j = some s ∧
    (∃ s', s.action_swap i j = some s') ∧
    s.action_move_directed i = none := by
  refine ⟨?_, ?_, ?_⟩
  · rw [PlacementSolution.action_move]
    split
    · rfl
    · split
      · rename_i hsites
        rw [hempty] at hsites
        exact absurd hsites (by simp)
      · rfl
      · rename_i c cs hsites
        rw [hempty] at hsites
        exact absurd (Option.some.inj hsites) (by simp)
  · rw [PlacementSolution.action_swap]
    split
    · exact ⟨s, rfl⟩
    · split
      · exact ⟨s, rfl⟩
      · split
        · exact ⟨_, rfl⟩
        · exact ⟨s, rfl⟩
  · rw [PlacementSolution.action_move_directed]
    split
    · rfl
    · split
      · split
        · rfl
        · rename_i sites hsites
          rw [hempty] at hsites
          obtain rfl : ([] : List FPGALayoutCoordinate) = sites :=
            Option.some.inj hsites
          split
          · rfl
          · rename_i c hmin
            exact absurd hmin (by simp [minByDist])
      · rfl

/-- Witness for C5 (amended) at the concrete fully-occupied state. -/
theorem operators_empty_neighborhood_behavior_witness :
    wSolFull.action_move 0 0 = some wSolFull ∧
    (∃ s', wSolFull.action_swap 0 0 = some s') ∧
    wSolFull.action_move_directed 0 = none :=
  operators_empty_neighborhood_behavior wSolFull 0 0 (by decide) (by decide)
    (by decide)

/-- C7 (code evaluation at the failing input): on a 1×1 layout whose stored
map leaves its only coordinate unspecified, `FPGALayout::get` itself
defaults the coordinate to `EMPTY`, but `get_possible_sites` panics
(`none`, modelling the `self.layout.map.get(&coord).unwrap()` on the
missing key) instead of treating the coordinate as empty and merely
excluding it. -/
theorem get_possible_sites_unspecified_coordinate_panics :
    (FPGALayout.mk [] 1 1).get ⟨0, 0⟩ = some FPGALayoutType.EMPTY ∧
    (PlacementSolution.mk (FPGALayout.mk [] 1 1) (NetlistGraph.mk [] [])
      []).get_possible_sites MacroType.CLB = none := by decide

/-- Rust `FPGALayout::count_summary`: how many grid coordinates carry the
given site type (the whole grid is scanned through `get`, so unspecified
in-bounds coordinates count as `EMPTY`). -/
def FPGALayout.count_summary (L : FPGALayout) (t : FPGALayoutType) : Nat :=
  (allCoords L.width L.height).countP (fun c => decide (L.get c = some t))

/-- Rust `NetlistGraph::count_summary`: how many netlist nodes require each
macro type. -/
def NetlistGraph.count_summary (g : NetlistGraph) (mt : MacroType) : Nat :=
  g.nodes.countP (fun n => decide (n.macro_type = mt))

/-- The capacity precondition asserted by both initial-placement strategies:
for each of the four macro types, the layout offers at least as many sites
as the netlist has nodes of that type. -/
def capacityOk (L : FPGALayout) (g : NetlistGraph) : Prop :=
  ∀ mt ∈ [MacroType.CLB, MacroType.DSP, MacroType.BRAM, MacroType.IOB],
    g.count_summary mt ≤ L.count_summary (FPGALayoutType.Macro mt)

instance (L : FPGALayout) (g : NetlistGraph) : Decidable (capacityOk L g) :=
  List.decidableBAll _ _

/-- The placement loop of Rust `gen_random_placement`, with the per-node
random site draws `choices` explicit: for each node in order, recompute the
possible sites and place the node on the drawn one.  An empty site list
panics (`none`, Rust's `gen_range(0..0)`); a `get_possible_sites` panic
propagates. -/
def placeAllRandom (choices : Nat → Nat) (k : Nat) (sol : PlacementSolution) :
    List NetlistNode → Option PlacementSolution
  | [] => some sol
  | n :: rest =>
    match sol.get_possible_sites n.macro_type with
    | none => none
    | some [] => none
    | some (c :: cs) =>
      placeAllRandom choices (k + 1)
        (sol.place_node n (pick (c :: cs) (choices k) defCoord)) rest

/-- Rust `gen_random_placement`: assert the capacity precondition, place
every node on a randomly drawn possible site, then assert `valid()`.  A
failed assertion or a panic is `none`. -/
def gen_random_placement (L : FPGALayout) (g : NetlistGraph)
    (choices : Nat → Nat) : Option PlacementSolution :=
  if capacityOk L g then
    match placeAllRandom choices 0 (PlacementSolution.mk L g []) g.nodes with
    | none => none
    | some sol =>
      match sol.valid with
      | some true => some sol
      | _ => none
  else none

/-- Rust's `min_by` over candidate sites by Manhattan distance to the
origin (`a.x + a.y`): `none` on an empty list, else the first minimum. -/
def minByOrigin : List FPGALayoutCoordinate → Option FPGALayoutCoordinate
  | [] => none
  | c :: rest =>
    some (rest.foldl (fun best c2 =>
      if best.x + best.y > c2.x + c2.y then c2 else best) c)

/-- The placement loop of Rust `gen_simple_placement`: for each node in
order, place it on the possible site of minimum Manhattan distance to the
origin.  An empty site list panics (`none`, the `min_by(...).unwrap()`). -/
def placeAllSimple (sol : PlacementSolution) :
    List NetlistNode → Option PlacementSolution
  | [] => some sol
  | n :: rest =>
    match sol.get_possible_sites n.macro_type with
    | none => none
    | some sites =>
      match minByOrigin sites with
      | none => none
      | some c => placeAllSimple (sol.place_node n c) rest

/-- Rust `gen_simple_placement`: assert the capacity precondition, place
every node greedily nearest the origin, then assert `valid()`. -/
def gen_simple_placement (L : FPGALayout) (g : NetlistGraph) :
    Option PlacementSolution :=
  if capacityOk L g then
    match placeAllSimple (PlacementSolution.mk L g []) g.nodes with
    | none => none
    | some sol =>
      match sol.valid with
      | some true => some sol
      | _ => none
  else none

/-- C6: whenever the netlist has strictly more nodes of some macro type than
the layout has sites of that type, both initial-placement strategies abort
at the capacity assertion before placing anything (`none`); and any
placement either strategy does return has passed the full `valid()` check,
so no node is ever silently dropped. -/
theorem gen_placement_capacity_guard :
    (∀ L g choices,
      (∃ mt ∈ [MacroType.CLB, MacroType.DSP, MacroType.BRAM, MacroType.IOB],
        L.count_summary (FPGALayoutType.Macro mt) < g.count_summary mt) →
      gen_random_placement L g choices = none) ∧
    (∀ L g,
      (∃ mt ∈ [MacroType.CLB, MacroType.DSP, MacroType.BRAM, MacroType.IOB],
        L.count_summary (FPGALayoutType.Macro mt) < g.count_summary mt) →
      gen_simple_placement L g = none) ∧
    (∀ L g choices sol, gen_random_placement L g choices = some sol →
      sol.valid = some true) ∧
    (∀ L g sol, gen_simple_placement L g = some sol →
      sol.valid = some true) := by
  have hcap : ∀ (L : FPGALayout) (g : NetlistGraph),
      (∃ mt ∈ [MacroType.CLB, MacroType.DSP, MacroType.BRAM, MacroType.IOB],
        L.count_summary (FPGALayoutType.Macro mt) < g.count_summary mt) →
      ¬ capacityOk L g := by
    rintro L g ⟨mt, hmem, hlt⟩ hok
    exact absurd (hok mt hmem) (by omega)
  refine ⟨?_, ?_, ?_, ?_⟩
  · intro L g choices hex
    rw [gen_random_placement, if_neg (hcap L g hex)]
  · intro L g hex
    rw [gen_simple_placement, if_neg (hcap L g hex)]
  · intro L g choices sol h
    rw [gen_random_placement] at h
    by_cases hok : capacityOk L g
    · rw [if_pos hok] at h
      split at h
      · exact absurd h (by simp)
      · split at h
        · rename_i sol0 _ hvalid
          rw [← Option.some.inj h]
          exact hvalid
        · exact absurd h (by simp)
    · rw [if_neg hok] at h
      exact absurd h (by simp)
  · intro L g sol h
    rw [gen_simple_placement] at h
    by_cases hok : capacityOk L g
    · rw [if_pos hok] at h
      split at h
      · exact absurd h (by simp)
      · split at h
        · rename_i sol0 _ hvalid
          rw [← Option.some.inj h]
          exact hvalid
        · exact absurd h (by simp)
    · rw [if_neg hok] at h
      exact absurd h (by simp)

/-- Witness for C6: a layout with zero CLB sites against a netlist with one
CLB node makes both strategies fail, and a well-provisioned concrete run
returns a placement that passes `valid()`. -/
theorem gen_placement_capacity_guard_witness :
    gen_random_placement (FPGALayout.mk [] 1 1) wNetlist (fun _ => 0) =
      none ∧
    gen_simple_placement (FPGALayout.mk [] 1 1) wNetlist = none :=
  ⟨gen_placement_capacity_guard.1 (FPGALayout.mk [] 1 1) wNetlist
      (fun _ => 0) ⟨MacroType.CLB, by decide, by decide⟩,
   gen_placement_capacity_guard.2.1 (FPGALayout.mk [] 1 1) wNetlist
      ⟨MacroType.CLB, by decide, by decide⟩⟩

/-- The per-step candidate generation of Rust `fast_sa_placer`, with the
drawn operators and their random indices explicit: each candidate is a
clone of the current state with one operator applied (`new_solution.action
(*action)`); a panic in any application propagates. -/
def genCands (s : PlacementSolution) :
    List (PlacementAction × Nat × Nat) → Option (List PlacementSolution)
  | [] => some []
  | c :: rest =>
    match s.action c.1 c.2.1 c.2.2, genCands s rest with
    | some t, some ts => some (t :: ts)
    | _, _ => none

/-- Scoring of the generated candidates with `cost_bb` (the Rust comparator
calls `cost_bb()` lazily, but the function is pure, so precomputing each
candidate's cost is equivalent); a cost panic propagates. -/
def scoreCands : List PlacementSolution →
    Option (List (PlacementSolution × Nat))
  | [] => some []
  | t :: ts =>
    match t.cost_bb, scoreCands ts with
    | some ct, some rest => some ((t, ct) :: rest)
    | _, _ => none

/-- Rust's `min_by` over scored candidates comparing the cost deltas
`cost - current_cost` (first minimum: the accumulator is replaced only when
the new delta is strictly smaller). -/
def minByDelta (cur : Nat) (x : PlacementSolution × Nat)
    (rest : List (PlacementSolution × Nat)) : PlacementSolution × Nat :=
  rest.foldl (fun best y =>
    if ((best.2 : Int) - (cur : Int)) > ((y.2 : Int) - (cur : Int)) then y
    else best) x

/-- One step of Rust `fast_sa_placer`: generate the candidates, pick the
minimum-delta one (`min_by(...).unwrap()`: `none` on an empty candidate
list), and accept it as the new current state iff its delta is strictly
negative; otherwise keep the current state. -/
def fastStep (s : PlacementSolution)
    (cands : List (PlacementAction × Nat × Nat)) : Option PlacementSolution :=
  match genCands s cands with
  | none => none
  | some ts =>
    match s.cost_bb with
    | none => none
    | some c =>
      match scoreCands ts with
      | none => none
      | some [] => none
      | some (x :: rest) =>
        if ((minByDelta c x rest).2 : Int) - (c : Int) < 0 then
          some (minByDelta c x rest).1
        else some s

/-- Rust `fast_sa_placer`: the step loop over the fixed budget, threading
the current state; the per-step operator draws are explicit
(`n_steps = steps.length`). -/
def fast_sa_placer (s0 : PlacementSolution)
    (steps : List (List (PlacementAction × Nat × Nat))) :
    Option PlacementSolution :=
  steps.foldl (fun acc cs =>
    match acc with
    | none => none
    | some s => fastStep s cs) (some s0)

/-- The sequence of current states of a `fast_sa_placer` run: the initial
state followed by the state after each step. -/
def saTrace (s0 : PlacementSolution) :
    List (List (PlacementAction × Nat × Nat)) →
    Option (List PlacementSolution)
  | [] => some [s0]
  | cs :: rest =>
    match fastStep s0 cs with
    | none => none
    | some s1 =>
      match saTrace s1 rest with
      | none => none
      | some tr => some (s0 :: tr)

/-- Every scored pair records its candidate's true cost. -/
theorem scoreCands_costs (ts : List PlacementSolution)
    (scored : List (PlacementSolution × Nat))
    (h : scoreCands ts = some scored) :
    ∀ p ∈ scored, p.1.cost_bb = some p.2 := by
  induction ts generalizing scored with
  | nil =>
    rw [scoreCands] at h
    rw [← Option.some.inj h]
    intro p hp
    exact absurd hp (by simp)
  | cons t ts ih =>
    rw [scoreCands] at h
    split at h
    · rename_i ct rest hct hrest
      rw [← Option.some.inj h]
      intro p hp
      rcases List.mem_cons.mp hp with he | hm
      · subst he
        exact hct
      · exact ih rest hrest p hm
    · exact absurd h (by simp)

/-- The delta-minimum is the start pair or one of the remaining pairs. -/
theorem minByDelta_mem (cur : Nat) (x : PlacementSolution × Nat)
    (rest : List (PlacementSolution × Nat)) :
    minByDelta cur x rest = x ∨ minByDelta cur x rest ∈ rest := by
  rw [minByDelta]
  induction rest generalizing x with
  | nil => exact Or.inl rfl
  | cons r rest ih =>
    rw [List.foldl_cons]
    split
    · rcases ih r with he | hm
      · refine Or.inr ?_
        rw [he]
        exact List.mem_cons_self _ _
      · exact Or.inr (List.mem_cons_of_mem _ hm)
    · rcases ih x with he | hm
      · exact Or.inl he
      · exact Or.inr (List.mem_cons_of_mem _ hm)

/-- A returning `fastStep` yields a state whose cost does not exceed the
current one, and a changed state only with a strictly smaller cost. -/
theorem fastStep_decreases (s : PlacementSolution)
    (cands : List (PlacementAction × Nat × Nat)) (s' : PlacementSolution)
    (h : fastStep s cands = some s') :
    ∃ c c', s.cost_bb = some c ∧ s'.cost_bb = some c' ∧ c' ≤ c ∧
      (c' < c ∨ s' = s) := by
  rw [fastStep] at h
  split at h
  · exact absurd h (by simp)
  · rename_i ts hts
    split at h
    · exact absurd h (by simp)
    · rename_i c hc
      split at h
      · exact absurd h (by simp)
      · exact absurd h (by simp)
      · rename_i x rest hscored
        have hcosts := scoreCands_costs ts (x :: rest) hscored
        have hbest : minByDelta c x rest ∈ x :: rest := by
          rcases minByDelta_mem c x rest with he | hm
          · rw [he]
            exact List.mem_cons_self _ _
          · exact List.mem_cons_of_mem _ hm
        have hbcost := hcosts (minByDelta c x rest) hbest
        split at h
        · rename_i hlt
          refine ⟨c, (minByDelta c x rest).2, hc, ?_, ?_, ?_⟩
          · rw [← Option.some.inj h]
            exact hbcost
          · omega
          · exact Or.inl (by omega)
        · rename_i hnlt
          refine ⟨c, c, hc, ?_, Nat.le_refl c, Or.inr (Option.some.inj h).symm⟩
          rw [← Option.some.inj h]
          exact hc

/-- A trace is never empty and starts at its initial state. -/
theorem saTrace_head (s0 : PlacementSolution)
    (steps : List (List (PlacementAction × Nat × Nat)))
    (tr : List PlacementSolution) (h : saTrace s0 steps = some tr) :
    tr.head? = some s0 := by
  cases steps with
  | nil =>
    rw [saTrace] at h
    rw [← Option.some.inj h]
    rfl
  | cons cs rest =>
    rw [saTrace] at h
    split at h
    · exact absurd h (by simp)
    · split at h
      · exact absurd h (by simp)
      · rw [← Option.some.inj h]
        rfl

/-- C2: the step of `fast_sa_placer` accepts the minimum-delta candidate as
the new current state iff its cost is strictly smaller than the current
cost (second conjunct: the exact acceptance rule; first conjunct: a step
never increases the cost and changes the state only on strict improvement);
consequently, for every initial state and step budget, the sequence of
current-state costs along the run's trace is non-increasing, and
`fast_sa_placer` returns the trace's last state. -/
theorem fast_sa_placer_strict_descent :
    (∀ s cands s', fastStep s cands = some s' →
      ∃ c c', s.cost_bb = some c ∧ s'.cost_bb = some c' ∧ c' ≤ c ∧
        (c' < c ∨ s' = s)) ∧
    (∀ s cands ts c x rest,
      genCands s cands = some ts → s.cost_bb = some c →
      scoreCands ts = some (x :: rest) →
      fastStep s cands =
        if ((minByDelta c x rest).2 : Int) - (c : Int) < 0 then
          some (minByDelta c x rest).1
        else some s) ∧
    (∀ s0 steps tr, saTrace s0 steps = some tr →
      fast_sa_placer s0 steps = tr.getLast? ∧
      List.Chain' (fun a b => ∃ ca cb, a.cost_bb = some ca ∧
        b.cost_bb = some cb ∧ cb ≤ ca) tr) := by
  refine ⟨fastStep_decreases, ?_, ?_⟩
  · intro s cands ts c x rest hts hc hscored
    simp only [fastStep, hts, hc, hscored]
  · intro s0 steps
    induction steps generalizing s0 with
    | nil =>
      intro tr h
      rw [saTrace] at h
      rw [← Option.some.inj h]
      exact ⟨rfl, List.chain'_singleton s0⟩
    | cons cs rest ih =>
      intro tr h
      rw [saTrace] at h
      split at h
      · exact absurd h (by simp)
      · rename_i s1 hstep
        split at h
        · exact absurd h (by simp)
        · rename_i tr1 htr1
          obtain ⟨hlast, hchain⟩ := ih s1 tr1 htr1
          rw [← Option.some.inj h]
          have htr1ne : tr1 ≠ [] := by
            intro hnil
            rw [hnil] at htr1
            have hh := saTrace_head s1 rest [] htr1
            exact absurd hh (by simp)
          obtain ⟨t1, ts1, rfl⟩ := List.exists_cons_of_ne_nil htr1ne
          have hhead := saTrace_head s1 rest (t1 :: ts1) htr1
          have ht1 : t1 = s1 := by simpa using hhead
          subst ht1
          constructor
          · simp only [fast_sa_placer, List.foldl_cons, hstep]
            rw [List.getLast?_cons_cons]
            exact hlast
          · rw [List.chain'_cons]
            obtain ⟨c, c', hc, hc', hle, _⟩ := fastStep_decreases s0 cs t1 hstep
            exact ⟨⟨c, c', hc, hc', hle⟩, hchain⟩

/-- Witness for C2: a one-step run on a concrete already-optimal state (the
swap candidate ties the current cost and is rejected). -/
theorem fast_sa_placer_strict_descent_witness :
    fast_sa_placer wSolPair [[(PlacementAction.SWAP, 0, 0)]] =
      [wSolPair, wSolPair].getLast? ∧
    List.Chain' (fun a b => ∃ ca cb, a.cost_bb = some ca ∧
      b.cost_bb = some cb ∧ cb ≤ ca) [wSolPair, wSolPair] :=
  fast_sa_placer_strict_descent.2.2 wSolPair
    [[(PlacementAction.SWAP, 0, 0)]] [wSolPair, wSolPair] (by decide)
